import Mathlib

/-!
Verification of the bogger storage-and-forwarding engine.

This file gives a shallow embedding of the byte-level storage layer
(block header, entry frames, `EntryWriter`, `EntryReader`), the directory
manager (`latest_block_number`, `delete_blocks`, `read_block_num`) and the
forwarder's ack handling and directory tailing (`handle_acks`,
`find_updated_block`), translated from the Rust source.

Files are modelled as lists of bytes (naturals below 256 in well-formed
data); the directory is a list of entries carrying a file name, a
regular-file flag and an on-disk length.  All machine integers are
naturals with explicit `% 2 ^ w` where the code truncates.
-/

set_option maxHeartbeats 1000000

namespace Bogger

/-- Value of a big-endian byte sequence. -/
def beVal (bs : List Nat) : Nat :=
  bs.foldl (fun a b => a * 256 + b) 0

/-- Big-endian bytes of `n` as `u16` (`(n as u16).to_be_bytes()`). -/
def u16be (n : Nat) : List Nat :=
  [n / 256 % 256, n % 256]

/-- Big-endian bytes of `n` as `u32` (`n.to_be_bytes()` for `u32`). -/
def u32be (n : Nat) : List Nat :=
  [n / 16777216 % 256, n / 65536 % 256, n / 256 % 256, n % 256]

/-- Big-endian bytes of `n` as `u64`. -/
def u64be (n : Nat) : List Nat :=
  [ n / 72057594037927936 % 256, n / 281474976710656 % 256,
    n / 1099511627776 % 256, n / 4294967296 % 256,
    n / 16777216 % 256, n / 65536 % 256, n / 256 % 256, n % 256 ]

/-- Read exactly `n` bytes of `file` at position `pos`; `none` models an
`UnexpectedEof` from `read_exact` / `read_u16` / `read_u32` / `read_u64`. -/
def readBytes? (file : List Nat) (pos n : Nat) : Option (List Nat) :=
  if pos + n ≤ file.length then some ((file.drop pos).take n) else none

/-! ## CRC-32C (Castagnoli), as the `crc` crate's `CRC_32_ISCSI`:
polynomial `0x1EDC6F41`, reflected, init `0xFFFFFFFF`, xorout `0xFFFFFFFF`. -/

/-- One bit step of the reflected CRC-32C: shift right, conditionally xor
the reflected polynomial `0x82F63B78`. -/
def crcStep (c : Nat) : Nat :=
  if c % 2 = 1 then Nat.xor (c / 2) 0x82F63B78 else c / 2

/-- Iterate `crcStep`. -/
def crcBits : Nat → Nat → Nat
  | 0, c => c
  | n + 1, c => crcBits n (crcStep c)

/-- Fold one input byte into the running CRC state. -/
def crc32cByte (c b : Nat) : Nat :=
  crcBits 8 (Nat.xor c b)

/-- CRC-32C of a byte sequence (`CRC32C.checksum` in the source). -/
def crc32c (data : List Nat) : Nat :=
  Nat.xor (List.foldl crc32cByte 0xFFFFFFFF data) 0xFFFFFFFF

/-! ## File names and the directory model (`fs.rs`) -/

/-- The `BLOCK_FILENAME_PREFIX` constant `"block."`. -/
def blockFileNameStart : List Char :=
  ['b', 'l', 'o', 'c', 'k', '.']

/-- Characters after the last `'.'` of `name`, if any. -/
def afterLastDot : List Char → Option (List Char)
  | [] => none
  | c :: cs =>
    match afterLastDot cs with
    | some e => some e
    | none => if c = '.' then some cs else none

/-- The file-name extension in the sense of Rust's `Path::extension`:
the portion after the last dot, except that a lone leading dot does not
begin an extension and `".."` has none. -/
def extension : List Char → Option (List Char)
  | [] => none
  | c :: rest =>
    if c :: rest = ['.', '.'] then none
    else if c = '.' then afterLastDot rest
    else afterLastDot (c :: rest)

/-- Rust's `str::parse::<u64>`: an optional leading `'+'`, then one or
more ASCII digits, and the value must fit in 64 bits. -/
def parseU64 (s : List Char) : Option Nat :=
  let digits := match s with
    | '+' :: rest => rest
    | _ => s
  if digits = [] then none
  else if digits.all Char.isDigit then
    let n := digits.foldl (fun a c => a * 10 + (c.toNat - 48)) 0
    if n < 18446744073709551616 then some n else none
  else none

/-- Translation of `read_block_num`: parse the extension of a path as a
`u64`, defaulting to `0` (`unwrap_or(0)`). -/
def read_block_num (name : List Char) : Nat :=
  ((extension name).bind parseU64).getD 0

/-- A directory entry as observed by `tokio::fs::read_dir`: its file
name, whether it is a regular file, and its on-disk length. -/
structure DirEntry where
  name : List Char
  isFile : Bool
  size : Nat
deriving DecidableEq

/-- The filter applied by `latest_block_number`, `delete_blocks` and
`find_updated_block`: the name starts with `"block."` and the entry is a
regular file. -/
def isBlockEntry (e : DirEntry) : Bool :=
  blockFileNameStart.isPrefixOf e.name && e.isFile

/-- Translation of `latest_block_number`: maximum parsed block number
over the block entries of the directory, `0` if there are none. -/
def latest_block_number (dir : List DirEntry) : Nat :=
  dir.foldl
    (fun latest e =>
      if isBlockEntry e then
        if latest < read_block_num e.name then read_block_num e.name else latest
      else latest)
    0

/-- Translation of `delete_blocks`: remove every regular file whose name
starts with `"block."` and whose parsed number is strictly below `to`;
every other entry is kept. -/
def delete_blocks : List DirEntry → Nat → List DirEntry
  | [], _ => []
  | e :: rest, t =>
    if isBlockEntry e && decide (read_block_num e.name < t) then
      delete_blocks rest t
    else
      e :: delete_blocks rest t

/-! ## Block header (`fs/block.rs`) -/

/-- The `HEADER_V1` constant: `u64::from_be_bytes([b'b', b'l', b'o',
b'c', b'k', 1, 0, 0])`. -/
def HEADER_V1 : Nat :=
  beVal [98, 108, 111, 99, 107, 1, 0, 0]

/-- Translation of `BlockHeader::from_u64`: only the exact `HEADER_V1`
value is accepted. -/
def BlockHeader.from_u64 (n : Nat) : Option Nat :=
  if n = HEADER_V1 then some n else none

/-- Translation of `BlockHeader::version`: `((h & 0xFF0000) >> 16) as u8`. -/
def BlockHeader.version (h : Nat) : Nat :=
  Nat.shiftRight (Nat.land h 0xFF0000) 16

/-- The eight bytes a writer puts at the start of every block file
(`write_u64(header.to_u64())`, big-endian). -/
def headerBytes : List Nat :=
  u64be HEADER_V1

/-! ## BlockInfo and configuration -/

/-- A position within a specific block: `(number, offset)`. -/
structure BlockInfo where
  number : Nat
  offset : Nat
deriving DecidableEq

/-- The writer configuration (`Config` in `fs.rs`); `max_entry_len` is a
`u16` in the source, `max_block_len` a `u64`. -/
structure Config where
  max_buffer_len : Nat
  max_block_len : Nat
  max_entry_len : Nat
deriving DecidableEq

/-- The default configuration. -/
def Config.default : Config :=
  { max_buffer_len := 8192, max_block_len := 1048576, max_entry_len := 1024 }

/-! ## EntryWriter (`fs/writer.rs`) -/

/-- Write errors.  `Io` and `NoDir` cannot arise in the pure byte model,
so only `EntrySize` is represented. -/
inductive WriteError where
  | EntrySize
deriving DecidableEq

/-- The writer state: its configuration, the block files it has already
rotated out of (number and bytes), and the current block's number,
offset and bytes.  The byte lists model the physical file contents. -/
structure EntryWriter where
  config : Config
  archived : List (Nat × List Nat)
  number : Nat
  offset : Nat
  current : List Nat
deriving DecidableEq

/-- Translation of `EntryWriter::write_header`: append the 8 header
bytes to the current file and advance the offset by 8. -/
def EntryWriter.write_header (w : EntryWriter) : EntryWriter :=
  { w with current := w.current ++ headerBytes, offset := w.offset + 8 }

/-- Translation of `EntryWriter::open` on an existing directory: compute
`latest + 1`, exclusively create that (empty) block file and write the
header. -/
def EntryWriter.openWriter (dir : List DirEntry) (cfg : Config) : EntryWriter :=
  EntryWriter.write_header
    { config := cfg, archived := [],
      number := latest_block_number dir + 1, offset := 0, current := [] }

/-- Translation of `EntryWriter::sync`: flush and `sync_data` have no
effect on the byte contents, which this model equates with the durable
state. -/
def EntryWriter.sync (w : EntryWriter) : EntryWriter :=
  w

/-- Translation of `EntryWriter::start_new_block`: sync, archive the
current file, move to number + 1, create the next file and write its
header (resetting the offset to 8). -/
def EntryWriter.start_new_block (w : EntryWriter) : EntryWriter :=
  EntryWriter.write_header
    { w.sync with
      archived := w.archived ++ [(w.number, w.current)],
      number := w.number + 1, offset := 0, current := [] }

/-- The frame bytes built in `append`'s scratch buffer:
`len: u16 BE`, payload, `crc: u32 BE`. -/
def frameBytes (entry : List Nat) : List Nat :=
  u16be entry.length ++ entry ++ u32be (crc32c entry)

/-- Translation of `EntryWriter::append`: reject oversized entries,
rotate first when the frame would push the offset past `max_block_len`,
then write the frame and advance the offset. -/
def EntryWriter.append (w : EntryWriter) (entry : List Nat) :
    Except WriteError EntryWriter :=
  if entry.length > w.config.max_entry_len then
    .error .EntrySize
  else
    let buffer := frameBytes entry
    let w1 := if w.offset + buffer.length > w.config.max_block_len then
                w.start_new_block
              else w
    .ok { w1 with current := w1.current ++ buffer,
                  offset := w1.offset + buffer.length }

/-- A sequence of appends, stopping at the first error. -/
def appendMany (w : EntryWriter) : List (List Nat) → Except WriteError EntryWriter
  | [] => .ok w
  | e :: es =>
    match w.append e with
    | .ok w1 => appendMany w1 es
    | .error err => .error err

/-! ## EntryReader (`fs/reader.rs`) -/

/-- Read errors.  The only I/O error the byte model can produce is an
unexpected end of file mid-frame, represented by `Io`. -/
inductive ReadError where
  | Io
  | Crc
  | Header : Option Nat → ReadError
deriving DecidableEq

/-- The reader state: the block file's bytes, the underlying stream
position and the reader's `BlockInfo`. -/
structure EntryReader where
  file : List Nat
  pos : Nat
  info : BlockInfo
deriving DecidableEq

/-- Translation of `EntryReader::open` plus `read_header`: read the
first 8 bytes as a big-endian `u64`, validate it via
`BlockHeader::from_u64` and the version check, then position after the
header when `info.offset == 0` and at `info.offset` otherwise. -/
def EntryReader.openReader (file : List Nat) (info : BlockInfo) :
    Except ReadError EntryReader :=
  match readBytes? file 0 8 with
  | none => .error .Io
  | some bs =>
    match BlockHeader.from_u64 (beVal bs) with
    | none => .error (.Header none)
    | some h =>
      if BlockHeader.version h ≠ 1 then
        .error (.Header (some (BlockHeader.version h)))
      else if info.offset = 0 then
        .ok { file := file, pos := 8, info := { info with offset := 8 } }
      else
        .ok { file := file, pos := info.offset, info := info }

/-- Translation of `EntryReader::next_entry`.  The result carries the
reader's state after the call, since the Rust method mutates `self` even
on the error paths.  An `UnexpectedEof` from the 2-byte length read is
mapped to `none`; an end of file during the payload or CRC reads is an
I/O error (the position after such a failed read is unspecified in the
source; the model leaves it at the end of the file).  The offset is
advanced past the frame before the CRC comparison.  The stream itself
consumes the full `2 + len + 4` bytes, but the source's
`add_offset(2 + len + 4)` computes the advance in `u16` arithmetic
(`len` is a `u16`), which wraps on overflow in release builds; the
embedding models that wrap with an explicit `% 65536` (a debug build
would instead panic for `len ≥ 65530`). -/
def EntryReader.next_entry (r : EntryReader) :
    Except ReadError (Option (List Nat × Nat)) × EntryReader :=
  match readBytes? r.file r.pos 2 with
  | none => (.ok none, r)
  | some lb =>
    let len := beVal lb
    match readBytes? r.file (r.pos + 2) len with
    | none => (.error .Io, { r with pos := r.file.length })
    | some payload =>
      match readBytes? r.file (r.pos + 2 + len) 4 with
      | none => (.error .Io, { r with pos := r.file.length })
      | some cb =>
        let crc := beVal cb
        let r1 := { r with
          pos := r.pos + (2 + len + 4),
          info := { r.info with
                    offset := r.info.offset + (2 + len + 4) % 65536 } }
        if crc ≠ crc32c payload then (.error .Crc, r1)
        else (.ok (some (payload, crc)), r1)

/-! ## Forwarder: ack handling and directory tailing (`forward.rs`) -/

/-- An acknowledgment from the remote. -/
structure Ack where
  info : BlockInfo
deriving DecidableEq

/-- The zero ack. -/
def Ack.zero : Ack :=
  { info := { number := 0, offset := 0 } }

/-- Translation of the `handle_acks` loop body over a finite list of
received acks: on a strictly advancing ack, update `prev` and run
`delete_blocks`; otherwise ignore the ack.  Besides the final directory
state the model returns the trace of thresholds passed to
`delete_blocks`, in call order. -/
def handle_acks_go : Ack → List DirEntry → List Ack → List DirEntry × List Nat
  | _, dir, [] => (dir, [])
  | prev, dir, ack :: rest =>
    if ack.info.number > prev.info.number then
      let r := handle_acks_go ack (delete_blocks dir ack.info.number) rest
      (r.1, ack.info.number :: r.2)
    else
      handle_acks_go prev dir rest

/-- The ack task starting from `Ack::zero()`. -/
def handle_acks (dir : List DirEntry) (acks : List Ack) :
    List DirEntry × List Nat :=
  handle_acks_go Ack.zero dir acks

/-- Translation of one directory scan of `find_updated_block` (the body
of `updated_block` / `wait_for_update`), carrying the running `closest`
candidate.  Returning at the grown current block is an early exit of the
scan. -/
def find_updated_block : List DirEntry → BlockInfo → Nat →
    Option (BlockInfo × Nat) → Option (BlockInfo × Nat)
  | [], _, _, closest => closest
  | e :: rest, info, size, closest =>
    if !isBlockEntry e then
      find_updated_block rest info size closest
    else if read_block_num e.name = info.number ∧ e.size > size then
      some (info, e.size)
    else if decide (read_block_num e.name > info.number)
            && (match closest with
                | some c => decide (read_block_num e.name < c.1.number)
                | none => true)
            && decide (e.size > 0) then
      find_updated_block rest info size
        (some ({ number := read_block_num e.name, offset := 0 }, e.size))
    else
      find_updated_block rest info size closest

/-- Predicate for the claim about `wait_for_update`: the entry is the
current block's file and it grew past the last observed size. -/
def growEntry (info : BlockInfo) (size : Nat) (e : DirEntry) : Bool :=
  isBlockEntry e && decide (read_block_num e.name = info.number)
    && decide (size < e.size)

/-- Predicate for the claim about `wait_for_update`: a non-empty block
file with a number strictly greater than the current one. -/
def candidate (info : BlockInfo) (e : DirEntry) : Bool :=
  isBlockEntry e && decide (info.number < read_block_num e.name)
    && decide (0 < e.size)

/-- The accumulation performed by `find_updated_block` when no entry
triggers the early grown-block exit, restricted to candidate entries:
keep the first entry with the least number.  Used to relate the scan to
its minimality property. -/
def mergeMin : Option (BlockInfo × Nat) → List DirEntry → Option (BlockInfo × Nat)
  | closest, [] => closest
  | closest, e :: rest =>
    if (match closest with
        | some c => decide (read_block_num e.name < c.1.number)
        | none => true) then
      mergeMin (some ({ number := read_block_num e.name, offset := 0 }, e.size)) rest
    else
      mergeMin closest rest

/-- Invariant of reachable writer states: the offset equals the current
file's physical length, and the current file starts with the header. -/
def WriterInv (w : EntryWriter) : Prop :=
  w.offset = w.current.length ∧ ∃ t, w.current = headerBytes ++ t

/-- Bound invariant used for the rotation-boundary claim: the current
offset is at most `max_block_len` and so is every archived block's
length. -/
def WriterBnd (w : EntryWriter) : Prop :=
  w.offset ≤ w.config.max_block_len ∧
  ∀ pr ∈ w.archived, pr.2.length ≤ w.config.max_block_len

/-! ## Byte-level lemmas -/

theorem u16be_length (n : Nat) : (u16be n).length = 2 := rfl

theorem u32be_length (n : Nat) : (u32be n).length = 4 := rfl

theorem headerBytes_length : headerBytes.length = 8 := rfl

theorem beVal_u16be (n : Nat) : beVal (u16be n) = n % 65536 := by
  simp only [beVal, u16be, List.foldl]
  omega

theorem beVal_u32be (n : Nat) : beVal (u32be n) = n % 4294967296 := by
  simp only [beVal, u32be, List.foldl]
  omega

theorem frameBytes_length (p : List Nat) :
    (frameBytes p).length = 2 + p.length + 4 := by
  simp only [frameBytes, List.length_append, u16be_length, u32be_length]

theorem xor_lt_32 {a b : Nat} (ha : a < 4294967296) (hb : b < 4294967296) :
    Nat.xor a b < 4294967296 := by
  have e : (4294967296 : Nat) = 2 ^ 32 := by norm_num
  rw [e] at ha hb ⊢
  exact Nat.xor_lt_two_pow ha hb

theorem crcStep_lt {c : Nat} (h : c < 4294967296) : crcStep c < 4294967296 := by
  unfold crcStep
  split
  · exact xor_lt_32 (by omega) (by norm_num)
  · omega

theorem crcBits_lt {c : Nat} (n : Nat) (h : c < 4294967296) :
    crcBits n c < 4294967296 := by
  induction n generalizing c with
  | zero => exact h
  | succ k ih => exact ih (crcStep_lt h)

theorem crc32cByte_lt {c b : Nat} (h : c < 4294967296) (hb : b < 256) :
    crc32cByte c b < 4294967296 := by
  unfold crc32cByte
  exact crcBits_lt 8 (xor_lt_32 h (by omega))

theorem crc32c_lt (data : List Nat) (hd : ∀ b ∈ data, b < 256) :
    crc32c data < 4294967296 := by
  unfold crc32c
  refine xor_lt_32 ?_ (by norm_num)
  have aux : ∀ (l : List Nat) (c : Nat), (∀ b ∈ l, b < 256) → c < 4294967296 →
      List.foldl crc32cByte c l < 4294967296 := by
    intro l
    induction l with
    | nil => intro c _ hc; exact hc
    | cons b bs ih =>
      intro c hl hc
      exact ih _ (fun x hx => hl x (List.mem_cons_of_mem _ hx))
        (crc32cByte_lt hc (hl b (List.mem_cons_self _ _)))
  exact aux data 0xFFFFFFFF hd (by norm_num)

theorem readBytes?_append (A C B : List Nat) :
    readBytes? (A ++ (C ++ B)) A.length C.length = some C := by
  unfold readBytes?
  rw [if_pos]
  · rw [List.drop_left, List.take_left]
  · simp only [List.length_append]
    omega

theorem readBytes?_some_le {file : List Nat} {pos n : Nat} {bs : List Nat}
    (h : readBytes? file pos n = some bs) : pos + n ≤ file.length := by
  unfold readBytes? at h
  by_cases hle : pos + n ≤ file.length
  · exact hle
  · rw [if_neg hle] at h
    cases h

theorem readBytes?_none_iff {file : List Nat} {pos n : Nat} :
    readBytes? file pos n = none ↔ file.length < pos + n := by
  unfold readBytes?
  split
  · rename_i hle
    simp
    omega
  · rename_i hgt
    simp
    omega

/-! ## Writer lemmas -/

theorem EntryWriter.append_err (w : EntryWriter) (p : List Nat)
    (hp : p.length > w.config.max_entry_len) :
    w.append p = .error .EntrySize := by
  unfold EntryWriter.append
  rw [if_pos hp]

theorem EntryWriter.append_no_rotate (w : EntryWriter) (p : List Nat)
    (hp : ¬ p.length > w.config.max_entry_len)
    (hfit : ¬ w.offset + (2 + p.length + 4) > w.config.max_block_len) :
    w.append p = .ok { w with current := w.current ++ frameBytes p,
                              offset := w.offset + (2 + p.length + 4) } := by
  unfold EntryWriter.append
  rw [if_neg hp]
  simp only [frameBytes_length]
  rw [if_neg hfit]

theorem EntryWriter.append_rotate (w : EntryWriter) (p : List Nat)
    (hp : ¬ p.length > w.config.max_entry_len)
    (hfit : w.offset + (2 + p.length + 4) > w.config.max_block_len) :
    w.append p = .ok { config := w.config,
                       archived := w.archived ++ [(w.number, w.current)],
                       number := w.number + 1,
                       offset := 8 + (2 + p.length + 4),
                       current := headerBytes ++ frameBytes p } := by
  unfold EntryWriter.append
  rw [if_neg hp]
  simp only [frameBytes_length]
  rw [if_pos hfit]
  simp only [EntryWriter.start_new_block, EntryWriter.write_header, EntryWriter.sync]
  simp [Nat.add_comm]

theorem EntryWriter.config_append {w w' : EntryWriter} {p : List Nat}
    (h : w.append p = .ok w') : w'.config = w.config := by
  by_cases hp : p.length > w.config.max_entry_len
  · rw [EntryWriter.append_err w p hp] at h
    exact absurd h (by simp)
  · by_cases hfit : w.offset + (2 + p.length + 4) > w.config.max_block_len
    · rw [EntryWriter.append_rotate w p hp hfit] at h
      injection h with h
      subst h
      rfl
    · rw [EntryWriter.append_no_rotate w p hp hfit] at h
      injection h with h
      subst h
      rfl

theorem writerInv_openWriter (dir : List DirEntry) (cfg : Config) :
    WriterInv (EntryWriter.openWriter dir cfg) :=
  ⟨rfl, ⟨[], rfl⟩⟩

theorem writerInv_append {w w' : EntryWriter} {p : List Nat}
    (hw : WriterInv w) (h : w.append p = .ok w') : WriterInv w' := by
  obtain ⟨ho, t, hc⟩ := hw
  by_cases hp : p.length > w.config.max_entry_len
  · rw [EntryWriter.append_err w p hp] at h
    exact absurd h (by simp)
  · by_cases hfit : w.offset + (2 + p.length + 4) > w.config.max_block_len
    · rw [EntryWriter.append_rotate w p hp hfit] at h
      injection h with h
      subst h
      refine ⟨?_, frameBytes p, rfl⟩
      simp only [List.length_append, headerBytes_length, frameBytes_length]
    · rw [EntryWriter.append_no_rotate w p hp hfit] at h
      injection h with h
      subst h
      refine ⟨?_, t ++ frameBytes p, ?_⟩
      · simp only [List.length_append, frameBytes_length, ho]
      · simp [hc]

theorem writerInv_appendMany :
    ∀ (es : List (List Nat)) (w w' : EntryWriter),
      WriterInv w → appendMany w es = .ok w' → WriterInv w' := by
  intro es
  induction es with
  | nil =>
    intro w w' hw h
    unfold appendMany at h
    injection h with h
    subst h
    exact hw
  | cons e es ih =>
    intro w w' hw h
    unfold appendMany at h
    cases he : w.append e with
    | ok w1 =>
      rw [he] at h
      exact ih w1 w' (writerInv_append hw he) h
    | error err =>
      rw [he] at h
      exact absurd h (by simp)

theorem writerBnd_append {w w' : EntryWriter} {p : List Nat}
    (hcfg : 8 + (2 + w.config.max_entry_len + 4) ≤ w.config.max_block_len)
    (hw : WriterInv w) (hb : WriterBnd w) (h : w.append p = .ok w') :
    WriterBnd w' := by
  obtain ⟨ho, _t, _hc⟩ := hw
  obtain ⟨hb1, hb2⟩ := hb
  by_cases hp : p.length > w.config.max_entry_len
  · rw [EntryWriter.append_err w p hp] at h
    exact absurd h (by simp)
  · by_cases hfit : w.offset + (2 + p.length + 4) > w.config.max_block_len
    · rw [EntryWriter.append_rotate w p hp hfit] at h
      injection h with h
      subst h
      refine ⟨by simp; omega, ?_⟩
      intro pr hpr
      rcases List.mem_append.mp hpr with hin | hin
      · exact hb2 pr hin
      · rcases List.mem_singleton.mp hin with rfl
        simpa [← ho] using hb1
    · rw [EntryWriter.append_no_rotate w p hp hfit] at h
      injection h with h
      subst h
      exact ⟨by simp; omega, hb2⟩

theorem writerBnd_openWriter (dir : List DirEntry) (cfg : Config)
    (hcfg : 8 + (2 + cfg.max_entry_len + 4) ≤ cfg.max_block_len) :
    WriterBnd (EntryWriter.openWriter dir cfg) := by
  refine ⟨?_, by simp [EntryWriter.openWriter, EntryWriter.write_header]⟩
  show 0 + 8 ≤ cfg.max_block_len
  omega

theorem writerBnd_appendMany :
    ∀ (es : List (List Nat)) (w w' : EntryWriter),
      8 + (2 + w.config.max_entry_len + 4) ≤ w.config.max_block_len →
      WriterInv w → WriterBnd w → appendMany w es = .ok w' → WriterBnd w' := by
  intro es
  induction es with
  | nil =>
    intro w w' _ _ hb h
    unfold appendMany at h
    injection h with h
    subst h
    exact hb
  | cons e es ih =>
    intro w w' hcfg hw hb h
    unfold appendMany at h
    cases he : w.append e with
    | ok w1 =>
      rw [he] at h
      have hc1 : w1.config = w.config := EntryWriter.config_append he
      exact ih w1 w' (by rw [hc1]; exact hcfg) (writerInv_append hw he)
        (writerBnd_append hcfg hw hb he) h
    | error err =>
      rw [he] at h
      exact absurd h (by simp)

theorem EntryWriter.config_appendMany :
    ∀ (es : List (List Nat)) (w w' : EntryWriter),
      appendMany w es = .ok w' → w'.config = w.config := by
  intro es
  induction es with
  | nil =>
    intro w w' h
    unfold appendMany at h
    injection h with h
    subst h
    rfl
  | cons e es ih =>
    intro w w' h
    unfold appendMany at h
    cases he : w.append e with
    | ok w1 =>
      rw [he] at h
      rw [ih w1 w' h, EntryWriter.config_append he]
    | error err =>
      rw [he] at h
      exact absurd h (by simp)

/-! ## Reader lemmas -/

theorem openReader_header (X : List Nat) (i : BlockInfo) (hi : i.offset ≠ 0) :
    EntryReader.openReader (headerBytes ++ X) i =
      .ok { file := headerBytes ++ X, pos := i.offset, info := i } := by
  unfold EntryReader.openReader
  have h8 : readBytes? (headerBytes ++ X) 0 8 = some headerBytes := by
    simpa using readBytes?_append [] headerBytes X
  rw [h8]
  have e1 : BlockHeader.from_u64 (beVal headerBytes) = some HEADER_V1 := by decide
  simp only [e1]
  rw [if_neg (by decide), if_neg hi]

theorem next_entry_read (A B p : List Nat) (c : Nat) (i : BlockInfo)
    (hp : p.length < 65536) (hc : c < 4294967296) :
    EntryReader.next_entry
        { file := A ++ (u16be p.length ++ (p ++ (u32be c ++ B))),
          pos := A.length, info := i } =
      ((if c = crc32c p then .ok (some (p, c)) else .error .Crc),
       { file := A ++ (u16be p.length ++ (p ++ (u32be c ++ B))),
         pos := A.length + (2 + p.length + 4),
         info := { number := i.number,
                   offset := i.offset + (2 + p.length + 4) % 65536 } }) := by
  have h1 : readBytes? (A ++ (u16be p.length ++ (p ++ (u32be c ++ B)))) A.length 2
      = some (u16be p.length) := by
    simpa using readBytes?_append A (u16be p.length) (p ++ (u32be c ++ B))
  have h2 : readBytes? (A ++ (u16be p.length ++ (p ++ (u32be c ++ B))))
      (A.length + 2) p.length = some p := by
    rw [show A ++ (u16be p.length ++ (p ++ (u32be c ++ B))) =
      (A ++ u16be p.length) ++ (p ++ (u32be c ++ B)) by simp [List.append_assoc]]
    simpa [List.length_append] using
      readBytes?_append (A ++ u16be p.length) p (u32be c ++ B)
  have h3 : readBytes? (A ++ (u16be p.length ++ (p ++ (u32be c ++ B))))
      (A.length + 2 + p.length) 4 = some (u32be c) := by
    rw [show A ++ (u16be p.length ++ (p ++ (u32be c ++ B))) =
      ((A ++ u16be p.length) ++ p) ++ (u32be c ++ B) by simp [List.append_assoc]]
    simpa [List.length_append, Nat.add_assoc] using
      readBytes?_append ((A ++ u16be p.length) ++ p) (u32be c) B
  unfold EntryReader.next_entry
  simp only [h1, beVal_u16be, Nat.mod_eq_of_lt hp, h2, h3, beVal_u32be,
    Nat.mod_eq_of_lt hc]
  by_cases hcc : c = crc32c p
  · rw [if_neg (fun hne => hne hcc), if_pos hcc]
  · rw [if_pos hcc, if_neg hcc]

theorem next_entry_frame (A B p : List Nat) (i : BlockInfo)
    (hp : p.length < 65536) (hcrc : crc32c p < 4294967296) :
    EntryReader.next_entry
        { file := A ++ (frameBytes p ++ B), pos := A.length, info := i } =
      (.ok (some (p, crc32c p)),
       { file := A ++ (frameBytes p ++ B),
         pos := A.length + (2 + p.length + 4),
         info := { number := i.number,
                   offset := i.offset + (2 + p.length + 4) % 65536 } }) := by
  have hfile : A ++ (frameBytes p ++ B) =
      A ++ (u16be p.length ++ (p ++ (u32be (crc32c p) ++ B))) := by
    simp [frameBytes, List.append_assoc]
  rw [hfile, next_entry_read A B p (crc32c p) i hp hcrc, if_pos rfl]

/-! ## Claims -/

/-- Claim C1: for every payload `p` with `p.length ≤ max_entry_len` (and
byte-valued entries, as `&[u8]` guarantees in the source), a successful
`EntryWriter::append` of `p` followed by `EntryReader::next_entry` at the
frame's start offset yields exactly `p` together with a CRC equal to
`CRC32C(p)`.  The post-call state is stated faithfully: the stream
consumed the full `2 + len + 4` frame bytes, while `info.offset`
advanced by `(2 + len + 4) % 2^16` (the source's `u16` arithmetic at
reader.rs line 58, which wraps in release builds); whenever the frame
size fits in a `u16` — in particular for every `len ≤ 65529` — the
reader is left exactly at the post-frame offset. -/
theorem C1_frame_round_trip
    (dir : List DirEntry) (cfg : Config) (es : List (List Nat))
    (w w' : EntryWriter) (p : List Nat)
    (hmel : cfg.max_entry_len < 65536)
    (hbytes : ∀ b ∈ p, b < 256)
    (hreach : appendMany (EntryWriter.openWriter dir cfg) es = .ok w)
    (hlen : p.length ≤ cfg.max_entry_len)
    (happ : w.append p = .ok w') :
    ∃ r : EntryReader,
      EntryReader.openReader w'.current
          { number := w'.number, offset := w'.offset - (2 + p.length + 4) } = .ok r ∧
      (r.next_entry).1 = .ok (some (p, crc32c p)) ∧
      (r.next_entry).2.pos = w'.offset ∧
      (r.next_entry).2.info.offset =
        (w'.offset - (2 + p.length + 4)) + (2 + p.length + 4) % 65536 ∧
      (2 + p.length + 4 ≤ 65535 → (r.next_entry).2.info.offset = w'.offset) := by
  have hw : WriterInv w :=
    writerInv_appendMany es _ w (writerInv_openWriter dir cfg) hreach
  have hcfgw : w.config = cfg := EntryWriter.config_appendMany es _ w hreach
  obtain ⟨ho, t, hc⟩ := hw
  have hplt : p.length < 65536 := lt_of_le_of_lt hlen hmel
  have hcrc : crc32c p < 4294967296 := crc32c_lt p hbytes
  have hp : ¬ p.length > w.config.max_entry_len := by rw [hcfgw]; omega
  by_cases hfit : w.offset + (2 + p.length + 4) > w.config.max_block_len
  · rw [EntryWriter.append_rotate w p hp hfit] at happ
    injection happ with happ
    subst happ
    have h := next_entry_frame headerBytes [] p
      { number := w.number + 1, offset := 8 } hplt hcrc
    simp only [List.append_nil, headerBytes_length] at h
    refine ⟨{ file := headerBytes ++ frameBytes p, pos := 8,
              info := { number := w.number + 1, offset := 8 } },
            ?_, ?_, ?_, ?_, ?_⟩
    · show EntryReader.openReader (headerBytes ++ frameBytes p)
        { number := w.number + 1, offset := 8 + (2 + p.length + 4) - (2 + p.length + 4) } = _
      rw [Nat.add_sub_cancel]
      exact openReader_header (frameBytes p) _ (by simp)
    · rw [h]
    · rw [h]
    · rw [h]
      show 8 + (2 + p.length + 4) % 65536 =
        8 + (2 + p.length + 4) - (2 + p.length + 4) + (2 + p.length + 4) % 65536
      rw [Nat.add_sub_cancel]
    · intro hle
      rw [h]
      show 8 + (2 + p.length + 4) % 65536 = 8 + (2 + p.length + 4)
      omega
  · rw [EntryWriter.append_no_rotate w p hp hfit] at happ
    injection happ with happ
    subst happ
    have h := next_entry_frame w.current [] p
      { number := w.number, offset := w.current.length } hplt hcrc
    simp only [List.append_nil] at h
    refine ⟨{ file := w.current ++ frameBytes p, pos := w.current.length,
              info := { number := w.number, offset := w.current.length } },
            ?_, ?_, ?_, ?_, ?_⟩
    · show EntryReader.openReader (w.current ++ frameBytes p)
        { number := w.number, offset := w.offset + (2 + p.length + 4) - (2 + p.length + 4) } = _
      rw [Nat.add_sub_cancel, ho, hc]
      have := openReader_header (t ++ frameBytes p)
        { number := w.number, offset := (headerBytes ++ t).length }
        (by simp [headerBytes_length])
      simpa [List.append_assoc] using this
    · rw [h]
    · rw [h]
      show w.current.length + (2 + p.length + 4) = w.offset + (2 + p.length + 4)
      rw [ho]
    · rw [h]
      show w.current.length + (2 + p.length + 4) % 65536 =
        w.offset + (2 + p.length + 4) - (2 + p.length + 4) + (2 + p.length + 4) % 65536
      rw [Nat.add_sub_cancel, ho]
    · intro hle
      rw [h]
      show w.current.length + (2 + p.length + 4) % 65536 = w.offset + (2 + p.length + 4)
      rw [ho]
      omega

/-- Witness for C1 at the default configuration: append the empty
payload to a fresh writer and read its frame back at offset 8. -/
theorem C1_frame_round_trip_witness :
    ∃ r : EntryReader,
      EntryReader.openReader (headerBytes ++ [0, 0, 0, 0, 0, 0])
          { number := 1, offset := 8 } = .ok r ∧
      (r.next_entry).1 = .ok (some (([] : List Nat), crc32c [])) ∧
      (r.next_entry).2.pos = 14 ∧
      (r.next_entry).2.info.offset = 8 + (2 + 0 + 4) % 65536 ∧
      (2 + 0 + 4 ≤ 65535 → (r.next_entry).2.info.offset = 14) :=
  C1_frame_round_trip [] Config.default [] (EntryWriter.openWriter [] Config.default)
    { config := Config.default, archived := [], number := 1, offset := 14,
      current := headerBytes ++ [0, 0, 0, 0, 0, 0] }
    [] (by decide) (by decide) rfl (by decide) rfl

/-- Claim C2: `append` rejects oversized payloads with `EntrySize`
writing nothing; if the frame fits it is written in place, advancing the
offset by `2 + len + 4`; otherwise the writer rotates first (archiving
the synced current file, moving to number + 1, creating the next file
with a fresh header and offset 8) and only then writes the frame. -/
theorem C2_append_cases (w : EntryWriter) (p : List Nat) :
    (p.length > w.config.max_entry_len → w.append p = .error .EntrySize) ∧
    (p.length ≤ w.config.max_entry_len →
      w.offset + (2 + p.length + 4) ≤ w.config.max_block_len →
      w.append p = .ok { w with current := w.current ++ frameBytes p,
                                offset := w.offset + (2 + p.length + 4) }) ∧
    (p.length ≤ w.config.max_entry_len →
      w.offset + (2 + p.length + 4) > w.config.max_block_len →
      w.append p = .ok { config := w.config,
                         archived := w.archived ++ [(w.number, w.current)],
                         number := w.number + 1,
                         offset := 8 + (2 + p.length + 4),
                         current := headerBytes ++ frameBytes p }) := by
  refine ⟨fun hp => EntryWriter.append_err w p hp, fun hp hfit => ?_, fun hp hfit => ?_⟩
  · exact EntryWriter.append_no_rotate w p (by omega) (by omega)
  · exact EntryWriter.append_rotate w p (by omega) hfit

/-- Witness for C2: the three cases at a concrete writer with
`max_block_len = 20` and `max_entry_len = 10` (the spec's S2 shape). -/
theorem C2_append_cases_witness :
    (EntryWriter.openWriter []
        { max_buffer_len := 8192, max_block_len := 20, max_entry_len := 10 }).append
        (List.replicate 11 0) = .error .EntrySize ∧
    (EntryWriter.openWriter []
        { max_buffer_len := 8192, max_block_len := 20, max_entry_len := 10 }).append
        [] = .ok { config := { max_buffer_len := 8192, max_block_len := 20,
                               max_entry_len := 10 },
                   archived := [], number := 1, offset := 14,
                   current := headerBytes ++ frameBytes [] } ∧
    (EntryWriter.openWriter []
        { max_buffer_len := 8192, max_block_len := 20, max_entry_len := 10 }).append
        (List.replicate 10 0) = .ok
          { config := { max_buffer_len := 8192, max_block_len := 20,
                        max_entry_len := 10 },
            archived := [(1, headerBytes)], number := 2,
            offset := 8 + (2 + 10 + 4),
            current := headerBytes ++ frameBytes (List.replicate 10 0) } :=
  ⟨(C2_append_cases _ (List.replicate 11 0)).1 (by decide),
   (C2_append_cases _ []).2.1 (by decide) (by decide),
   (C2_append_cases _ (List.replicate 10 0)).2.2 (by decide) (by decide)⟩

/-- Claim C3 (amended): for every configuration whose block size cap is
at least one header plus one maximal frame, that is
`8 + (2 + max_entry_len + 4) ≤ max_block_len`, and every sequence of
successful appends, no post-append offset exceeds `max_block_len`, and
no block's on-disk length exceeds `max_block_len + (2 + max_entry_len + 4)`.
Without that bound on the configuration the claim fails, see the
counterexample. -/
theorem C3_rotation_boundary (dir : List DirEntry) (cfg : Config)
    (es : List (List Nat)) (w : EntryWriter)
    (hcfg : 8 + (2 + cfg.max_entry_len + 4) ≤ cfg.max_block_len)
    (h : appendMany (EntryWriter.openWriter dir cfg) es = .ok w) :
    w.offset ≤ cfg.max_block_len ∧
    w.current.length ≤ cfg.max_block_len + (2 + cfg.max_entry_len + 4) ∧
    ∀ pr ∈ w.archived, pr.2.length ≤ cfg.max_block_len + (2 + cfg.max_entry_len + 4) := by
  have hcw : w.config = cfg := EntryWriter.config_appendMany es _ w h
  have hinv : WriterInv w :=
    writerInv_appendMany es _ w (writerInv_openWriter dir cfg) h
  have hb : WriterBnd w :=
    writerBnd_appendMany es _ w hcfg (writerInv_openWriter dir cfg)
      (writerBnd_openWriter dir cfg hcfg) h
  obtain ⟨hb1, hb2⟩ := hb
  rw [hcw] at hb1 hb2
  refine ⟨hb1, ?_, fun pr hpr => le_trans (hb2 pr hpr) (by omega)⟩
  rw [← hinv.1]
  omega

/-- Witness for C3 at the default configuration after one append. -/
theorem C3_rotation_boundary_witness :
    (14 : Nat) ≤ 1048576 ∧
    (headerBytes ++ [0, 0, 0, 0, 0, 0]).length ≤ 1048576 + (2 + 1024 + 4) ∧
    ∀ pr ∈ ([] : List (Nat × List Nat)),
      pr.2.length ≤ 1048576 + (2 + 1024 + 4) :=
  C3_rotation_boundary [] Config.default [[]]
    { config := Config.default, archived := [], number := 1, offset := 14,
      current := headerBytes ++ [0, 0, 0, 0, 0, 0] }
    (by decide) rfl

/-- Claim C3 counterexample: with `max_block_len = 20` and
`max_entry_len = 10` a single successful append of a 10-byte payload
leaves the post-append offset at 24, which exceeds `max_block_len`; the
claim as stated quantifies over every configuration and is therefore
false. -/
theorem C3_counterexample :
    (appendMany (EntryWriter.openWriter []
        { max_buffer_len := 8192, max_block_len := 20, max_entry_len := 10 })
        [List.replicate 10 0]).map EntryWriter.offset = .ok 24 ∧
    ¬ (24 : Nat) ≤ 20 :=
  ⟨rfl, by decide⟩

/-- Claim C4: after construction and after every sequence of successful
appends (rotating ones included), the writer's offset equals the
physical length of the current block file. -/
theorem C4_offset_invariant (dir : List DirEntry) (cfg : Config)
    (es : List (List Nat)) (w : EntryWriter)
    (h : appendMany (EntryWriter.openWriter dir cfg) es = .ok w) :
    (EntryWriter.openWriter dir cfg).offset =
      (EntryWriter.openWriter dir cfg).current.length ∧
    w.offset = w.current.length :=
  ⟨(writerInv_openWriter dir cfg).1,
   (writerInv_appendMany es _ w (writerInv_openWriter dir cfg) h).1⟩

/-- Witness for C4 after one concrete append. -/
theorem C4_offset_invariant_witness :
    (EntryWriter.openWriter [] Config.default).offset =
      (EntryWriter.openWriter [] Config.default).current.length ∧
    (14 : Nat) = (headerBytes ++ [0, 0, 0, 0, 0, 0]).length :=
  C4_offset_invariant [] Config.default [[]]
    { config := Config.default, archived := [], number := 1, offset := 14,
      current := headerBytes ++ [0, 0, 0, 0, 0, 0] }
    rfl

/-- Claim C5 (amended): `next_entry` returns the no-more-entries
sentinel exactly when end of file occurs within the 2-byte length
prefix -- whether zero or one byte is available, since `read_u16`
reports `UnexpectedEof` in both cases and the code maps that kind to
`None`; an end of file after a complete length prefix but before the
end of the payload and CRC bytes is surfaced as an I/O error. -/
theorem C5_next_entry_eof (r : EntryReader) :
    ((r.next_entry).1 = .ok none ↔ r.file.length < r.pos + 2) ∧
    (∀ lb, readBytes? r.file r.pos 2 = some lb →
      r.file.length < r.pos + 2 + beVal lb + 4 →
      (r.next_entry).1 = .error .Io) := by
  have hio : ∀ lb, readBytes? r.file r.pos 2 = some lb →
      r.file.length < r.pos + 2 + beVal lb + 4 →
      (r.next_entry).1 = .error .Io := by
    intro lb hlb hshort
    rcases hp : readBytes? r.file (r.pos + 2) (beVal lb) with _ | payload
    · simp only [EntryReader.next_entry, hlb, hp]
    · have h4 : readBytes? r.file (r.pos + 2 + beVal lb) 4 = none := by
        rw [readBytes?_none_iff]
        omega
      simp only [EntryReader.next_entry, hlb, hp, h4]
  refine ⟨?_, hio⟩
  rcases h2 : readBytes? r.file r.pos 2 with _ | lb
  · have hl : r.file.length < r.pos + 2 := readBytes?_none_iff.mp h2
    simp only [EntryReader.next_entry, h2]
    exact iff_of_true (by simp) hl
  · have hle : r.pos + 2 ≤ r.file.length := readBytes?_some_le h2
    rcases hp : readBytes? r.file (r.pos + 2) (beVal lb) with _ | payload
    · simp only [EntryReader.next_entry, h2, hp]
      exact iff_of_false (by simp) (by omega)
    · rcases hc : readBytes? r.file (r.pos + 2 + beVal lb) 4 with _ | cb
      · simp only [EntryReader.next_entry, h2, hp, hc]
        exact iff_of_false (by simp) (by omega)
      · simp only [EntryReader.next_entry, h2, hp, hc]
        refine iff_of_false ?_ (by omega)
        split <;> simp

/-- Witness for C5: a frame whose length prefix promises five bytes of
which only two are present is surfaced as an I/O error. -/
theorem C5_next_entry_eof_witness :
    (EntryReader.next_entry
        { file := headerBytes ++ [0, 5, 1, 2], pos := 8,
          info := { number := 1, offset := 8 } }).1 = .error .Io :=
  (C5_next_entry_eof
    { file := headerBytes ++ [0, 5, 1, 2], pos := 8,
      info := { number := 1, offset := 8 } }).2 [0, 5] rfl (by decide)

/-- Claim C5 counterexample: with exactly one byte available at the
current position (a partial read of the length prefix), `next_entry`
returns the no-more-entries sentinel `Ok(None)` rather than surfacing
an I/O error as the claim states. -/
theorem C5_counterexample :
    (EntryReader.next_entry
        { file := headerBytes ++ [7], pos := 8,
          info := { number := 1, offset := 8 } }).1 = .ok none ∧
    (headerBytes ++ [7]).length = 8 + 1 ∧
    (EntryReader.next_entry
        { file := headerBytes ++ [7], pos := 8,
          info := { number := 1, offset := 8 } }).1 ≠ .error .Io := by
  refine ⟨rfl, rfl, fun h => ?_⟩
  have h' : (Except.ok none : Except ReadError (Option (List Nat × Nat))) =
      .error .Io := h
  exact Except.noConfusion h'

/-- Claim C6 (amended): `BlockHeader::from_u64` accepts exactly the
`HEADER_V1` value, so `openReader` fails with `Header none` for every
other 8-byte header value -- including values whose five magic bytes
match but whose version byte differs -- and no run of `openReader` can
fail with `Header (some v)`: that branch is unreachable. -/
theorem C6_header_decoding :
    (∀ (file : List Nat) (info : BlockInfo) (bs : List Nat),
      readBytes? file 0 8 = some bs → beVal bs ≠ HEADER_V1 →
      EntryReader.openReader file info = .error (.Header none)) ∧
    (∀ (file : List Nat) (info : BlockInfo) (v : Nat),
      EntryReader.openReader file info ≠ .error (.Header (some v))) := by
  constructor
  · intro file info bs h8 hne
    unfold EntryReader.openReader
    rw [h8]
    simp only [BlockHeader.from_u64, if_neg hne]
  · intro file info v h
    unfold EntryReader.openReader at h
    split at h
    · exact absurd h (by simp)
    · split at h
      · exact absurd h (by simp)
      · rename_i hh hfrom
        split at h
        · rename_i hv
          unfold BlockHeader.from_u64 at hfrom
          split at hfrom
          · rename_i he
            injection hfrom with hfrom
            rw [← hfrom, he] at hv
            exact hv (by decide)
          · exact Option.noConfusion hfrom
        · split at h
          · exact absurd h (by simp)
          · exact absurd h (by simp)

/-- Witness for C6: a header whose magic matches but whose version byte
is 2 makes `openReader` fail with `Header none`. -/
theorem C6_header_decoding_witness :
    EntryReader.openReader [98, 108, 111, 99, 107, 2, 0, 0]
        { number := 1, offset := 0 } = .error (.Header none) :=
  C6_header_decoding.1 [98, 108, 111, 99, 107, 2, 0, 0]
    { number := 1, offset := 0 } [98, 108, 111, 99, 107, 2, 0, 0] rfl (by decide)

/-- Claim C6 counterexample: the 8-byte header `b"block\x02\x00\x00"`
has the five matching magic bytes and version 2, yet `openReader` fails
with `Header none`, not `Header (some 2)` as the claim states. -/
theorem C6_counterexample :
    List.take 5 [98, 108, 111, 99, 107, 2, 0, 0] = [98, 108, 111, 99, 107] ∧
    BlockHeader.version (beVal [98, 108, 111, 99, 107, 2, 0, 0]) = 2 ∧
    EntryReader.openReader [98, 108, 111, 99, 107, 2, 0, 0]
        { number := 1, offset := 0 } = .error (.Header none) ∧
    EntryReader.openReader [98, 108, 111, 99, 107, 2, 0, 0]
        { number := 1, offset := 0 } ≠ .error (.Header (some 2)) := by
  refine ⟨rfl, by decide, rfl, fun h => ?_⟩
  have h' : (Except.error (ReadError.Header none) :
      Except ReadError EntryReader) = .error (.Header (some 2)) := h
  injection h' with h'
  injection h' with h'
  exact Option.noConfusion h'

/-- Claim C10 (amended): when `next_entry` returns a `Crc` error the
reader's state has already changed: the length prefix, payload and CRC
bytes of the corrupt frame were all consumed and the stream position
advanced by `2 + len + 4`, while `block_info().offset` advanced by
`(2 + len + 4) % 2^16` — the source computes the advance in `u16`
arithmetic (reader.rs line 58), which wraps in release builds — equal to
`2 + len + 4` whenever `len ≤ 65529`.  Either way the error branch is
not atomic with respect to the reader's position. -/
theorem C10_crc_error_state (r r' : EntryReader)
    (res : Except ReadError (Option (List Nat × Nat)))
    (h : r.next_entry = (res, r')) (hcrc : res = .error .Crc) :
    ∃ lb payload cb,
      readBytes? r.file r.pos 2 = some lb ∧
      readBytes? r.file (r.pos + 2) (beVal lb) = some payload ∧
      readBytes? r.file (r.pos + 2 + beVal lb) 4 = some cb ∧
      beVal cb ≠ crc32c payload ∧
      r'.file = r.file ∧
      r'.info.number = r.info.number ∧
      r'.pos = r.pos + (2 + beVal lb + 4) ∧
      r'.info.offset = r.info.offset + (2 + beVal lb + 4) % 65536 ∧
      (beVal lb ≤ 65529 →
        r'.info.offset = r.info.offset + (2 + beVal lb + 4)) := by
  subst hcrc
  rcases h2 : readBytes? r.file r.pos 2 with _ | lb
  · simp only [EntryReader.next_entry, h2] at h
    exact Except.noConfusion (congrArg Prod.fst h)
  · rcases hp : readBytes? r.file (r.pos + 2) (beVal lb) with _ | payload
    · simp only [EntryReader.next_entry, h2, hp] at h
      exact Except.noConfusion (congrArg Prod.fst h) (fun he => ReadError.noConfusion he)
    · rcases hc : readBytes? r.file (r.pos + 2 + beVal lb) 4 with _ | cb
      · simp only [EntryReader.next_entry, h2, hp, hc] at h
        exact Except.noConfusion (congrArg Prod.fst h) (fun he => ReadError.noConfusion he)
      · simp only [EntryReader.next_entry, h2, hp, hc] at h
        by_cases hne : beVal cb ≠ crc32c payload
        · rw [if_pos hne] at h
          have hr : r' = { r with
              pos := r.pos + (2 + beVal lb + 4),
              info := { r.info with
                        offset := r.info.offset + (2 + beVal lb + 4) % 65536 } } :=
            (congrArg Prod.snd h).symm
          subst hr
          have hcond : beVal lb ≤ 65529 →
              r.info.offset + (2 + beVal lb + 4) % 65536 =
                r.info.offset + (2 + beVal lb + 4) := by
            intro hle
            omega
          exact ⟨lb, payload, cb, rfl, hp, hc, hne, rfl, rfl, rfl, rfl, hcond⟩
        · rw [if_neg hne] at h
          exact Except.noConfusion (congrArg Prod.fst h)

/-- Witness for C10: a zero-length frame whose stored CRC is 1 (the
CRC-32C of the empty payload is 0) yields a `Crc` error with the
reader's position and offset advanced from 8 to 14. -/
theorem C10_crc_error_state_witness :
    ∃ lb payload cb,
      readBytes? (headerBytes ++ [0, 0, 0, 0, 0, 1]) 8 2 = some lb ∧
      readBytes? (headerBytes ++ [0, 0, 0, 0, 0, 1]) (8 + 2) (beVal lb) = some payload ∧
      readBytes? (headerBytes ++ [0, 0, 0, 0, 0, 1]) (8 + 2 + beVal lb) 4 = some cb ∧
      beVal cb ≠ crc32c payload ∧
      (14 : Nat) = 8 + (2 + beVal lb + 4) := by
  obtain ⟨lb, payload, cb, h1, hp2, h3, h4, _, _, h7, _, _⟩ :=
    C10_crc_error_state
      { file := headerBytes ++ [0, 0, 0, 0, 0, 1], pos := 8,
        info := { number := 1, offset := 8 } }
      { file := headerBytes ++ [0, 0, 0, 0, 0, 1], pos := 14,
        info := { number := 1, offset := 14 } }
      (.error .Crc) rfl rfl
  exact ⟨lb, payload, cb, h1, hp2, h3, h4, h7⟩

/-- Claim C10 counterexample: on a corrupt frame whose length prefix is
65530, the source's `add_offset(2 + len + 4)` is `u16` arithmetic
(reader.rs line 58), so in release builds the advance `2 + 65530 + 4 =
65536` wraps to 0 (a debug build would panic): after the `Crc` error the
offset has not advanced by `2 + len + 4` as the claim states — here it
has not advanced at all.  The stored CRC `(crc32c p + 1) % 2^32` is
provably distinct from `crc32c p`. -/
theorem C10_counterexample :
    (EntryReader.next_entry
        { file := headerBytes ++ (u16be 65530 ++ (List.replicate 65530 0 ++
            u32be ((crc32c (List.replicate 65530 0) + 1) % 4294967296))),
          pos := 8, info := { number := 7, offset := 8 } }).1 = .error .Crc ∧
    ((EntryReader.next_entry
        { file := headerBytes ++ (u16be 65530 ++ (List.replicate 65530 0 ++
            u32be ((crc32c (List.replicate 65530 0) + 1) % 4294967296))),
          pos := 8, info := { number := 7, offset := 8 } }).2).info.offset = 8 ∧
    (8 : Nat) ≠ 8 + (2 + 65530 + 4) := by
  have hbytes : ∀ b ∈ List.replicate 65530 (0 : Nat), b < 256 := by
    intro b hb
    rw [List.eq_of_mem_replicate hb]
    norm_num
  have hlt : crc32c (List.replicate 65530 0) < 4294967296 :=
    crc32c_lt (List.replicate 65530 0) hbytes
  have hcne : (crc32c (List.replicate 65530 0) + 1) % 4294967296 ≠
      crc32c (List.replicate 65530 0) := by
    omega
  have hc : (crc32c (List.replicate 65530 0) + 1) % 4294967296 < 4294967296 := by
    omega
  have hplen : (List.replicate 65530 (0 : Nat)).length < 65536 := by
    rw [List.length_replicate]
    norm_num
  have h := next_entry_read headerBytes [] (List.replicate 65530 0)
      ((crc32c (List.replicate 65530 0) + 1) % 4294967296)
      { number := 7, offset := 8 } hplen hc
  rw [List.length_replicate, List.append_nil, headerBytes_length] at h
  refine ⟨?_, ?_, by omega⟩
  · rw [h, if_neg hcne]
  · rw [h]

/-! ## Directory and ack lemmas -/

theorem delete_blocks_eq_filter (t : Nat) :
    ∀ (dir : List DirEntry),
      delete_blocks dir t =
        dir.filter (fun e => !(isBlockEntry e && decide (read_block_num e.name < t))) := by
  intro dir
  induction dir with
  | nil => rfl
  | cons e rest ih =>
    by_cases hdel : (isBlockEntry e && decide (read_block_num e.name < t)) = true
    · rw [Bool.and_eq_true] at hdel
      obtain ⟨hb, hlt⟩ := hdel
      have hlt' : read_block_num e.name < t := of_decide_eq_true hlt
      have hdel : (isBlockEntry e && decide (read_block_num e.name < t)) = true := by
        rw [Bool.and_eq_true]
        exact ⟨hb, hlt⟩
      simp [delete_blocks, hdel, List.filter_cons, ih]
      rw [if_neg]
      rintro (hfalse | hge)
      · rw [hb] at hfalse
        cases hfalse
      · omega
    · have hb2 : isBlockEntry e = true → ¬ read_block_num e.name < t := by
        intro hb hlt
        apply hdel
        rw [Bool.and_eq_true]
        exact ⟨hb, decide_eq_true hlt⟩
      simp [delete_blocks, hdel, List.filter_cons, ih]
      rw [if_pos]
      by_cases hb : isBlockEntry e = true
      · right
        have := hb2 hb
        omega
      · left
        exact Bool.eq_false_iff.mpr hb

theorem handle_acks_go_chain :
    ∀ (acks : List Ack) (prev : Ack) (dir : List DirEntry),
      List.Chain (· < ·) prev.info.number (handle_acks_go prev dir acks).2 := by
  intro acks
  induction acks with
  | nil =>
    intro prev dir
    exact List.Chain.nil
  | cons a rest ih =>
    intro prev dir
    by_cases hadv : a.info.number > prev.info.number
    · simp only [handle_acks_go, if_pos hadv]
      exact List.Chain.cons hadv (ih a (delete_blocks dir a.info.number))
    · simp only [handle_acks_go, if_neg hadv]
      exact ih prev dir

theorem handle_acks_go_foldl :
    ∀ (acks : List Ack) (prev : Ack) (dir : List DirEntry),
      (handle_acks_go prev dir acks).1 =
        List.foldl delete_blocks dir (handle_acks_go prev dir acks).2 := by
  intro acks
  induction acks with
  | nil =>
    intro prev dir
    rfl
  | cons a rest ih =>
    intro prev dir
    by_cases hadv : a.info.number > prev.info.number
    · simp only [handle_acks_go, if_pos hadv, List.foldl_cons]
      exact ih a (delete_blocks dir a.info.number)
    · simp only [handle_acks_go, if_neg hadv]
      exact ih prev dir

theorem handle_acks_go_stale :
    ∀ (acks : List Ack) (prev : Ack) (dir : List DirEntry),
      (∀ a ∈ acks, a.info.number ≤ prev.info.number) →
      handle_acks_go prev dir acks = (dir, []) := by
  intro acks
  induction acks with
  | nil =>
    intro prev dir _
    rfl
  | cons a rest ih =>
    intro prev dir hall
    have ha : a.info.number ≤ prev.info.number := hall a (List.mem_cons_self _ _)
    simp only [handle_acks_go, if_neg (by omega : ¬ a.info.number > prev.info.number)]
    exact ih prev dir (fun x hx => hall x (List.mem_cons_of_mem _ hx))

/-! ## Tailing-scan lemmas -/

theorem growEntry_eq_true {info : BlockInfo} {size : Nat} {e : DirEntry} :
    growEntry info size e = true ↔
      isBlockEntry e = true ∧ read_block_num e.name = info.number ∧ size < e.size := by
  simp [growEntry, and_assoc]

theorem candidate_eq_true {info : BlockInfo} {e : DirEntry} :
    candidate info e = true ↔
      isBlockEntry e = true ∧ info.number < read_block_num e.name ∧ 0 < e.size := by
  simp [candidate, and_assoc]

theorem find_grow (info : BlockInfo) (size : Nat) :
    ∀ (dir : List DirEntry) (closest : Option (BlockInfo × Nat)) (e : DirEntry),
      ((dir.filter isBlockEntry).map (fun x => read_block_num x.name)).Nodup →
      e ∈ dir → growEntry info size e = true →
      find_updated_block dir info size closest = some (info, e.size) := by
  intro dir
  induction dir with
  | nil =>
    intro closest e _ he _
    cases he
  | cons d rest ih =>
    intro closest e hnd he hg
    obtain ⟨hbe, hnum, hsz⟩ := growEntry_eq_true.mp hg
    rcases List.mem_cons.mp he with rfl | he'
    · unfold find_updated_block
      rw [if_neg (by simp [hbe]), if_pos ⟨hnum, hsz⟩]
    · by_cases hbd : isBlockEntry d = true
      · rw [List.filter_cons_of_pos hbd, List.map_cons] at hnd
        obtain ⟨hdnotin, hnd'⟩ := List.nodup_cons.mp hnd
        have hdnum : ¬ (read_block_num d.name = info.number ∧ d.size > size) := by
          rintro ⟨hdn, _⟩
          apply hdnotin
          rw [hdn, ← hnum]
          exact List.mem_map.mpr ⟨e, List.mem_filter.mpr ⟨he', hbe⟩, rfl⟩
        unfold find_updated_block
        rw [if_neg (by simp [hbd]), if_neg hdnum]
        split
        · exact ih _ e hnd' he' hg
        · exact ih closest e hnd' he' hg
      · have hbdf : isBlockEntry d = false := Bool.eq_false_iff.mpr hbd
        unfold find_updated_block
        rw [if_pos (by simp [hbdf])]
        rw [List.filter_cons_of_neg (by simp [hbdf])] at hnd
        exact ih closest e hnd he' hg

theorem find_eq_mergeMin (info : BlockInfo) (size : Nat) :
    ∀ (dir : List DirEntry) (closest : Option (BlockInfo × Nat)),
      (∀ e ∈ dir, growEntry info size e = false) →
      find_updated_block dir info size closest =
        mergeMin closest (dir.filter (candidate info)) := by
  intro dir
  induction dir with
  | nil =>
    intro closest _
    rfl
  | cons d rest ih =>
    intro closest hng
    have hngd : growEntry info size d = false := hng d (List.mem_cons_self _ _)
    have hngr : ∀ e ∈ rest, growEntry info size e = false :=
      fun e he => hng e (List.mem_cons_of_mem _ he)
    by_cases hbd : isBlockEntry d = true
    · have hno2 : ¬ (read_block_num d.name = info.number ∧ d.size > size) := by
        rintro ⟨h1, h2⟩
        have := growEntry_eq_true.mpr ⟨hbd, h1, h2⟩
        rw [hngd] at this
        cases this
      unfold find_updated_block
      rw [if_neg (by simp [hbd]), if_neg hno2]
      by_cases hcand : candidate info d = true
      · obtain ⟨_, hgt, hpos⟩ := candidate_eq_true.mp hcand
        rw [List.filter_cons_of_pos hcand]
        unfold mergeMin
        rcases closest with _ | c0
        · rw [if_pos (by simp [hgt, hpos]), if_pos (by simp)]
          exact ih _ hngr
        · by_cases hlt : read_block_num d.name < c0.1.number
          · rw [if_pos (by simp [hgt, hpos, hlt]), if_pos (by simp [hlt])]
            exact ih _ hngr
          · rw [if_neg (by simp [hlt]), if_neg (by simp [hlt])]
            exact ih _ hngr
      · have hcf : candidate info d = false := Bool.eq_false_iff.mpr hcand
        have hnc : ¬ (info.number < read_block_num d.name ∧ 0 < d.size) := by
          intro hh
          exact hcand (candidate_eq_true.mpr ⟨hbd, hh.1, hh.2⟩)
        have hc3 : ¬ ((decide (read_block_num d.name > info.number) &&
            (match closest with
             | some c => decide (read_block_num d.name < c.1.number)
             | none => true) &&
            decide (d.size > 0)) = true) := by
          simp only [Bool.and_eq_true, decide_eq_true_eq]
          rintro ⟨⟨h1, _⟩, h3⟩
          exact hnc ⟨h1, h3⟩
        rw [if_neg hc3, List.filter_cons_of_neg (by simp [hcf])]
        exact ih closest hngr
    · have hbdf : isBlockEntry d = false := Bool.eq_false_iff.mpr hbd
      have hcf : candidate info d = false := by simp [candidate, hbdf]
      unfold find_updated_block
      rw [if_pos (by simp [hbdf]), List.filter_cons_of_neg (by simp [hcf])]
      exact ih closest hngr

theorem mergeMin_eq_none :
    ∀ (cands : List DirEntry) (closest : Option (BlockInfo × Nat)),
      mergeMin closest cands = none ↔ (closest = none ∧ cands = []) := by
  intro cands
  induction cands with
  | nil =>
    intro closest
    simp [mergeMin]
  | cons e rest ih =>
    intro closest
    unfold mergeMin
    rcases closest with _ | c
    · rw [if_pos (by simp), ih]
      simp
    · by_cases hlt : read_block_num e.name < c.1.number
      · rw [if_pos (by simp [hlt]), ih]
        simp
      · rw [if_neg (by simp [hlt]), ih]
        simp

theorem mergeMin_min :
    ∀ (cands : List DirEntry) (closest : Option (BlockInfo × Nat)) (bi : BlockInfo) (s : Nat),
      mergeMin closest cands = some (bi, s) →
      (closest = some (bi, s) ∨
        ∃ e ∈ cands, read_block_num e.name = bi.number ∧ e.size = s ∧ bi.offset = 0) ∧
      (∀ e ∈ cands, bi.number ≤ read_block_num e.name) ∧
      (∀ c, closest = some c → bi.number ≤ c.1.number) := by
  intro cands
  induction cands with
  | nil =>
    intro closest bi s h
    refine ⟨Or.inl h, by simp, ?_⟩
    intro c hc
    rw [hc] at h
    injection h with h
    rw [h]
  | cons e rest ih =>
    intro closest bi s h
    unfold mergeMin at h
    rcases closest with _ | c0
    · rw [if_pos (by simp)] at h
      obtain ⟨horig, hmin, hcl⟩ := ih _ bi s h
      have hle_e : bi.number ≤ read_block_num e.name := by
        simpa using hcl ({ number := read_block_num e.name, offset := 0 }, e.size) rfl
      refine ⟨?_, ?_, ?_⟩
      · rcases horig with hc | ⟨e', he', hrest⟩
        · injection hc with hc
          injection hc with hbi hs
          right
          refine ⟨e, List.mem_cons_self _ _, ?_, ?_, ?_⟩
          · rw [← hbi]
          · exact hs
          · rw [← hbi]
        · exact Or.inr ⟨e', List.mem_cons_of_mem _ he', hrest⟩
      · intro x hx
        rcases List.mem_cons.mp hx with rfl | hx'
        · exact hle_e
        · exact hmin x hx'
      · intro c hc
        cases hc
    · by_cases hlt : read_block_num e.name < c0.1.number
      · rw [if_pos (by simp [hlt])] at h
        obtain ⟨horig, hmin, hcl⟩ := ih _ bi s h
        have hle_e : bi.number ≤ read_block_num e.name := by
          simpa using hcl ({ number := read_block_num e.name, offset := 0 }, e.size) rfl
        refine ⟨?_, ?_, ?_⟩
        · rcases horig with hc | ⟨e', he', hrest⟩
          · injection hc with hc
            injection hc with hbi hs
            right
            refine ⟨e, List.mem_cons_self _ _, ?_, ?_, ?_⟩
            · rw [← hbi]
            · exact hs
            · rw [← hbi]
          · exact Or.inr ⟨e', List.mem_cons_of_mem _ he', hrest⟩
        · intro x hx
          rcases List.mem_cons.mp hx with rfl | hx'
          · exact hle_e
          · exact hmin x hx'
        · intro c hc
          injection hc with hc
          subst hc
          omega
      · rw [if_neg (by simp [hlt])] at h
        obtain ⟨horig, hmin, hcl⟩ := ih _ bi s h
        have hbic0 : bi.number ≤ c0.1.number := hcl c0 rfl
        refine ⟨?_, ?_, ?_⟩
        · rcases horig with hc | ⟨e', he', hrest⟩
          · exact Or.inl hc
          · exact Or.inr ⟨e', List.mem_cons_of_mem _ he', hrest⟩
        · intro x hx
          rcases List.mem_cons.mp hx with rfl | hx'
          · omega
          · exact hmin x hx'
        · intro c hc
          injection hc with hc
          subst hc
          exact hbic0

/-! ## Remaining claims -/

/-- Claim C7: `delete_blocks dir t` removes exactly the regular files
whose name starts with `"block."` and whose parsed number is strictly
below `t`, in particular leaving every non-block file untouched, and a
second run with the same `t` changes nothing. -/
theorem C7_delete_blocks_exact (dir : List DirEntry) (t : Nat) :
    delete_blocks dir t =
      dir.filter (fun e => !(isBlockEntry e && decide (read_block_num e.name < t))) ∧
    delete_blocks (delete_blocks dir t) t = delete_blocks dir t := by
  refine ⟨delete_blocks_eq_filter t dir, ?_⟩
  rw [delete_blocks_eq_filter t dir, delete_blocks_eq_filter t, List.filter_filter]
  simp

/-- Claim C8: over any finite sequence of received acks, the ack task
deletes only on acks whose block number strictly exceeds the previously
honored one (the thresholds passed to `delete_blocks` form a strictly
ascending chain above the initial number), the final directory is
exactly the fold of `delete_blocks` over those thresholds, and a run in
which no ack advances performs no deletion at all. -/
theorem C8_ack_advancement (prev : Ack) (dir : List DirEntry) (acks : List Ack) :
    List.Chain (· < ·) prev.info.number (handle_acks_go prev dir acks).2 ∧
    (handle_acks_go prev dir acks).1 =
      List.foldl delete_blocks dir (handle_acks_go prev dir acks).2 ∧
    ((∀ a ∈ acks, a.info.number ≤ prev.info.number) →
      handle_acks_go prev dir acks = (dir, [])) ∧
    handle_acks dir acks = handle_acks_go Ack.zero dir acks :=
  ⟨handle_acks_go_chain acks prev dir, handle_acks_go_foldl acks prev dir,
   handle_acks_go_stale acks prev dir, rfl⟩

/-- Witness for C8: a single non-advancing ack (number 0, like the
initial `Ack::zero()`) deletes nothing. -/
theorem C8_ack_advancement_witness :
    handle_acks_go Ack.zero
      [{ name := ['b', 'l', 'o', 'c', 'k', '.', '1'], isFile := true, size := 9 }]
      [{ info := { number := 0, offset := 5 } }] =
      ([{ name := ['b', 'l', 'o', 'c', 'k', '.', '1'], isFile := true, size := 9 }], []) :=
  (C8_ack_advancement Ack.zero
    [{ name := ['b', 'l', 'o', 'c', 'k', '.', '1'], isFile := true, size := 9 }]
    [{ info := { number := 0, offset := 5 } }]).2.2.1 (by decide)

/-- Claim C9: one directory scan of `wait_for_update`
(`find_updated_block` with no initial candidate), on a directory whose
block files carry pairwise distinct numbers: if the file for
`info.number` has on-disk length strictly greater than `size`, the scan
returns `(info, that length)`; otherwise it reports no update exactly
when no non-empty block file with a larger number exists, and any
returned update is `(BlockInfo with number n and offset 0, size of n)`
for the candidate entry with the smallest such number `n`. -/
theorem C9_updated_block (dir : List DirEntry) (info : BlockInfo) (size : Nat)
    (hnd : ((dir.filter isBlockEntry).map (fun e => read_block_num e.name)).Nodup) :
    (∀ e ∈ dir, growEntry info size e = true →
      find_updated_block dir info size none = some (info, e.size)) ∧
    ((∀ e ∈ dir, growEntry info size e = false) →
      ((find_updated_block dir info size none = none ↔
          dir.filter (candidate info) = []) ∧
       (∀ bi s, find_updated_block dir info size none = some (bi, s) →
          bi.offset = 0 ∧ info.number < bi.number ∧
          (∃ e ∈ dir.filter (candidate info),
            read_block_num e.name = bi.number ∧ e.size = s) ∧
          ∀ e ∈ dir.filter (candidate info),
            bi.number ≤ read_block_num e.name))) := by
  constructor
  · intro e he hg
    exact find_grow info size dir none e hnd he hg
  · intro hng
    have heq := find_eq_mergeMin info size dir none hng
    constructor
    · rw [heq, mergeMin_eq_none]
      simp
    · intro bi s hsome
      rw [heq] at hsome
      obtain ⟨horig, hmin, _⟩ := mergeMin_min _ none bi s hsome
      rcases horig with hc | ⟨e, hef, hnum, hsz, hoff⟩
      · cases hc
      · obtain ⟨_, hcand⟩ := List.mem_filter.mp hef
        obtain ⟨_, hgt, _⟩ := candidate_eq_true.mp hcand
        refine ⟨hoff, ?_, ⟨e, hef, hnum, hsz⟩, hmin⟩
        rw [← hnum]
        exact hgt

/-- Witness for C9, smallest-candidate case: with only `block.2` (7
bytes) in the directory and the reader at block 1, the scan returns
block 2 at offset 0 with size 7. -/
theorem C9_updated_block_witness :
    ({ number := 2, offset := 0 } : BlockInfo).offset = 0 ∧
    (1 : Nat) < ({ number := 2, offset := 0 } : BlockInfo).number ∧
    (∃ e ∈ List.filter (candidate { number := 1, offset := 8 })
        [{ name := ['b', 'l', 'o', 'c', 'k', '.', '2'], isFile := true, size := 7 }],
      read_block_num e.name = ({ number := 2, offset := 0 } : BlockInfo).number ∧
      e.size = 7) ∧
    ∀ e ∈ List.filter (candidate { number := 1, offset := 8 })
        [{ name := ['b', 'l', 'o', 'c', 'k', '.', '2'], isFile := true, size := 7 }],
      ({ number := 2, offset := 0 } : BlockInfo).number ≤ read_block_num e.name :=
  ((C9_updated_block
      [{ name := ['b', 'l', 'o', 'c', 'k', '.', '2'], isFile := true, size := 7 }]
      { number := 1, offset := 8 } 0 (by decide)).2 (by decide)).2
    { number := 2, offset := 0 } 7 rfl

end Bogger
